import Mathlib

/-!
Verification of the stream-framing and chunking core of optable-pkglib
(package `io`, plus the `unit` constants it uses).

The Go source is embedded shallowly:

* a byte stream is a `List Nat` (each element one byte);
* an `io.Reader` over a finite stream is `Option (List Nat)`: `some s` is a
  reader with `s` left to deliver, `none` is the chunker's nil reader after
  exhaustion;
* fallible operations return `Except GoErr`;
* the newline-delimited decoder (`NewNewlineDelimitedFrameReader`, built on
  `bufio.Scanner` with `ScanLines`) is modelled as a pure function from the
  whole stream to its list of frames, since the reader is a forward-only
  cursor over that stream.
-/

namespace Pkglib

/-- Error values of the Go code: `io.EOF`, `io.ErrUnexpectedEOF`,
`InvalidArgErr` (src/unnamed/part_002 line 19) and `binary`'s varint
overflow error. -/
inductive GoErr where
  | eof
  | unexpectedEOF
  | invalidArg
  | overflow
  deriving DecidableEq, Repr

/-- The newline delimiter byte fixed by `NewNewlineDelimitedChunkReader`. -/
def newline : Nat := 10

/-- `bytes.LastIndexByte buf b`: index of the last occurrence of `b` in
`buf`, `none` when absent (Go returns -1). -/
def lastIndexByte : List Nat → Nat → Option Nat
  | [], _ => none
  | a :: rest, b =>
    match lastIndexByte rest b with
    | some i => some (i + 1)
    | none => if a = b then some 0 else none

/-- The token sequence `bufio.Scanner` with `bufio.ScanLines` produces from a
stream, before the carriage-return stripping: the segments between newline
bytes, with the final segment emitted only when non-terminated input remains
(a trailing newline does not yield an extra empty token, an empty stream
yields no token). -/
def splitLines : List Nat → List (List Nat)
  | [] => []
  | b :: rest =>
    if b = newline then [] :: splitLines rest
    else
      match splitLines rest with
      | [] => [[b]]
      | line :: more => (b :: line) :: more

/-- `dropCR` of `bufio.ScanLines`: strip one trailing carriage return. -/
def dropCR (l : List Nat) : List Nat :=
  if l.getLast? = some 13 then l.dropLast else l

/-- All frames `NewNewlineDelimitedFrameReader(r, skipEmpty)` yields from
stream `s` until `io.EOF` (src/io/frame.go lines 124-146): scanner tokens,
each with a trailing carriage return stripped, empty lines skipped when
`skipEmpty` is set. -/
def newlineFrames (skipEmpty : Bool) (s : List Nat) : List (List Nat) :=
  ((splitLines s).map dropCR).filter fun l => !(skipEmpty && l.isEmpty)

/-- State of `delimitedChunker` (src/unnamed/part_002 lines 45-51): the
reader `r` (`none` once the Go field is nil), the delimiter, the chunk size
and the carry buffer `prev`. -/
structure Chunker where
  r : Option (List Nat)
  delimiter : Nat
  chunkSize : Nat
  prev : List Nat
  deriving DecidableEq, Repr

/-- Outcome of one `NextChunk` call: a chunk whose decodable content is the
given byte list (the concatenation `io.MultiReader` feeds to the frame
reader), `io.EOF`, or `NoFrameFoundErr`. -/
inductive ChunkStep where
  | chunk (content : List Nat)
  | eof
  | noFrameFound
  deriving DecidableEq, Repr

/-- One `delimitedChunker.NextChunk` call (src/unnamed/part_002 lines
55-90), returning the outcome and the mutated chunker state.  `io.ReadFull`
reads `min chunkSize src.length` bytes; a short read (`io.EOF` or
`io.ErrUnexpectedEOF`) sets the reader to nil.  The carry buffer is
prepended and cleared, then the last delimiter in the bytes just read splits
them into chunk content and new carry. -/
def nextChunk (c : Chunker) : ChunkStep × Chunker :=
  match c.r with
  | none => (ChunkStep.eof, c)
  | some src =>
    let buf := src.take c.chunkSize
    let r' : Option (List Nat) :=
      if src.length < c.chunkSize then none else some (src.drop c.chunkSize)
    match lastIndexByte buf c.delimiter with
    | none =>
      if buf.length = c.chunkSize then
        (ChunkStep.noFrameFound, { c with r := r', prev := [] })
      else
        (ChunkStep.chunk (c.prev ++ buf), { c with r := r', prev := [] })
    | some pos =>
      (ChunkStep.chunk (c.prev ++ buf.take pos),
        { c with r := r', prev := buf.drop pos })

/-- `NewNewlineDelimitedChunkReader(reader, chunkSize)` (src/unnamed/part_002
lines 29-43): rejects a negative chunk size, then a nil reader, with
`InvalidArgErr`; otherwise the chunker starts with delimiter `'\n'` and an
empty carry buffer.  The Go `chunkSize` is an `int`, so it is an `Int`
here. -/
def newNewlineDelimitedChunkReader (reader : Option (List Nat))
    (chunkSize : Int) : Except GoErr Chunker :=
  if chunkSize < 0 then Except.error GoErr.invalidArg
  else
    match reader with
    | none => Except.error GoErr.invalidArg
    | some src =>
      Except.ok
        { r := some src, delimiter := newline, chunkSize := chunkSize.toNat,
          prev := [] }

/-- Result of draining a chunker (`ReadAllChunks`, src/unnamed/part_002
lines 99-112): the chunk contents in order when the loop ends at `io.EOF`,
`failed` when a call returns `NoFrameFoundErr`, `outOfFuel` when the fuel
ran out before either. -/
inductive RunResult where
  | done (chunks : List (List Nat))
  | failed
  | outOfFuel
  deriving DecidableEq, Repr

/-- Drive `NextChunk` until `io.EOF` or an error, as `ReadAllChunks` does,
with explicit fuel; `RunResult.done` certifies the loop reached `io.EOF`. -/
def runChunks : Nat → Chunker → RunResult
  | 0, _ => RunResult.outOfFuel
  | fuel + 1, c =>
    match nextChunk c with
    | (ChunkStep.eof, _) => RunResult.done []
    | (ChunkStep.noFrameFound, _) => RunResult.failed
    | (ChunkStep.chunk content, c') =>
      match runChunks fuel c' with
      | RunResult.done rest => RunResult.done (content :: rest)
      | RunResult.failed => RunResult.failed
      | RunResult.outOfFuel => RunResult.outOfFuel

/-- Frames obtained from a list of chunk contents: each chunk's cursor is
`NewNewlineDelimitedFrameReader(reader, true)` (src/unnamed/part_002 line
89), and `MultiFrameReader` concatenates the cursors in chunk order. -/
def chunkedFrames (chunks : List (List Nat)) : List (List Nat) :=
  (chunks.map (newlineFrames true)).flatten

/-- `binary.PutUvarint` on a non-negative value: little-endian groups of
seven bits, a continuation bit on every byte but the last. -/
def putUvarint (n : Nat) : List Nat :=
  if h : n < 128 then [n]
  else (n % 128 + 128) :: putUvarint (n / 128)
decreasing_by exact Nat.div_lt_self (by omega) (by omega)

/-- The bytes one `Write` of the var-length frame writer emits
(src/io/frame.go lines 39-52): the payload length as a uvarint, then the
payload. -/
def varLenWrite (payload : List Nat) : List Nat :=
  putUvarint payload.length ++ payload

/-- The stream produced by writing each payload in order with
`NewVarLenFrameWriter`. -/
def encodeVarLen (payloads : List (List Nat)) : List Nat :=
  (payloads.map varLenWrite).flatten

/-- The loop of `binary.ReadUvarint`: `i` bytes consumed so far into the
accumulator `x` (each group of seven bits shifted by `7*i`); at most
`MaxVarintLen64 = 10` bytes, with the tenth significant byte capped at 1;
`io.EOF` after at least one byte becomes `io.ErrUnexpectedEOF`.  On success
returns the decoded value and the unread rest of the stream. -/
def readUvarintLoop : List Nat → Nat → Nat → Except GoErr (Nat × List Nat)
  | input, i, x =>
    if 10 ≤ i then Except.error GoErr.overflow
    else
      match input with
      | [] =>
        Except.error (if i = 0 then GoErr.eof else GoErr.unexpectedEOF)
      | b :: rest =>
        if b < 128 then
          if i = 9 ∧ 1 < b then Except.error GoErr.overflow
          else Except.ok (x + b * 2 ^ (7 * i), rest)
        else readUvarintLoop rest (i + 1) (x + b % 128 * 2 ^ (7 * i))

/-- `binary.ReadUvarint` over the remaining stream. -/
def readUvarint (input : List Nat) : Except GoErr (Nat × List Nat) :=
  readUvarintLoop input 0 0

/-- One `Read` of the var-length frame reader (src/io/frame.go lines 58-84):
read a uvarint length, then exactly that many payload bytes with
`io.ReadFull`.  When fewer bytes remain than the declared length, both Go
paths (`io.EOF` converted on line 77, `io.ErrUnexpectedEOF` from a partial
`ReadFull` forwarded on line 78) surface `io.ErrUnexpectedEOF`.  On success
returns the payload and the unread rest of the stream. -/
def varLenReadFrame (input : List Nat) :
    Except GoErr (List Nat × List Nat) :=
  match readUvarint input with
  | Except.error e => Except.error e
  | Except.ok (payloadLen, rest) =>
    if payloadLen ≤ rest.length then
      Except.ok (rest.take payloadLen, rest.drop payloadLen)
    else Except.error GoErr.unexpectedEOF

/-- `ReadAllFrames` over a var-length stream with explicit fuel: read frames
until `io.EOF`, propagating any other error; `some` certifies the fuel was
not exhausted. -/
def decodeVarLenFuel : Nat → List Nat → Option (Except GoErr (List (List Nat)))
  | 0, _ => none
  | fuel + 1, input =>
    match varLenReadFrame input with
    | Except.error GoErr.eof => some (Except.ok [])
    | Except.error e => some (Except.error e)
    | Except.ok (frame, rest) =>
      match decodeVarLenFuel fuel rest with
      | some (Except.ok frames) => some (Except.ok (frame :: frames))
      | other => other

/-- `ReadAllFrames` over a var-length stream.  Every successful `Read`
consumes at least the one-byte length, so `input.length + 1` rounds always
suffice to reach `io.EOF`. -/
def decodeVarLen (input : List Nat) :
    Option (Except GoErr (List (List Nat))) :=
  decodeVarLenFuel (input.length + 1) input

/-- A constituent closer as `chainedCloser.Close` sees it: an identifier
for the invocation trace, and the error its `Close` returns (`none` for
success). -/
structure GoCloser where
  id : Nat
  res : Option Nat
  deriving DecidableEq, Repr

/-- `chainedCloser.Close` (src/io/shim.go lines 57-65): call each closer in
declared order, returning at the first failure.  The result pairs the trace
of invoked closer identifiers with the returned error. -/
def chainedClose : List GoCloser → List Nat × Option Nat
  | [] => ([], none)
  | c :: cs =>
    match c.res with
    | some e => ([c.id], some e)
    | none =>
      let r := chainedClose cs
      (c.id :: r.1, r.2)

/-- State of `closeOnce` (src/io/shim.go lines 67-78): whether the
`sync.Once` has fired, and the saved error of the first call. -/
structure CloseOnceState where
  done : Bool
  saved : Option Nat
  deriving DecidableEq, Repr

/-- One `closeOnce.Close` call, with `res` the error the underlying `Close`
would return: the first call invokes the underlying closer and saves its
result, later calls return the saved result.  The third component records
whether the underlying closer was invoked by this call. -/
def closeOnceStep (res : Option Nat) (s : CloseOnceState) :
    Option Nat × CloseOnceState × Bool :=
  if s.done then (s.saved, s, false)
  else (res, { done := true, saved := res }, true)

/-- `n` successive `closeOnce.Close` calls from state `s`: the list of
returned results and the number of underlying invocations. -/
def closeOnceCalls (res : Option Nat) (s : CloseOnceState) :
    Nat → List (Option Nat) × Nat
  | 0 => ([], 0)
  | n + 1 =>
    let step := closeOnceStep res s
    let rest := closeOnceCalls res step.2.1 n
    (step.1 :: rest.1, (if step.2.2 then 1 else 0) + rest.2)

/-- The fresh wrapper `SafeCloser` returns (src/io/shim.go lines 81-83). -/
def closeOnceInit : CloseOnceState :=
  { done := false, saved := none }

/-!  Theorems settling the claims. -/

/-- C1: the chunk/stream equivalence fails on the stream `"a\nb"` (bytes
`[97, 10, 98]`) with chunk size 4, which is at least the largest single
frame length (1).  The lone short read finds the delimiter at index 1, so
the tail `"\nb"` goes into the carry buffer while the reader is set to nil;
the next call returns `io.EOF` and the carry, holding frame `"b"`, is never
delivered.  Chunked decoding yields `["a"]` where direct decoding yields
`["a", "b"]`. -/
theorem c1_equivalence_fails_on_trailing_carry :
    runChunks 5
        { r := some [97, 10, 98], delimiter := 10, chunkSize := 4, prev := [] }
      = RunResult.done [[97]]
    ∧ newlineFrames true [97, 10, 98] = [[97], [98]]
    ∧ chunkedFrames [[97]] ≠ newlineFrames true [97, 10, 98] := by
  refine ⟨rfl, rfl, ?_⟩
  decide

/-- C2: on the stream `"a\nb"` with chunk size 4, the `NextChunk` call with
the short (end-of-input) read leaves a non-empty carry buffer `"\nb"` and a
nil reader, and the immediately following `NextChunk` call returns `io.EOF`
without delivering that carry as a final chunk — even though it still holds
the frame `"b"`.  Only the empty-carry and after-exhaustion parts of the
claim hold. -/
theorem c2_nonempty_carry_not_delivered :
    nextChunk
        { r := some [97, 10, 98], delimiter := 10, chunkSize := 4, prev := [] }
      = (ChunkStep.chunk [97],
         { r := none, delimiter := 10, chunkSize := 4, prev := [10, 98] })
    ∧ ([10, 98] : List Nat) ≠ []
    ∧ nextChunk
        { r := none, delimiter := 10, chunkSize := 4, prev := [10, 98] }
      = (ChunkStep.eof,
         { r := none, delimiter := 10, chunkSize := 4, prev := [10, 98] })
    ∧ newlineFrames true [10, 98] = [[98]] := by
  refine ⟨rfl, ?_, rfl, rfl⟩
  decide

/-- C3 counterexample: chunk size 0 with a non-nil reader is accepted, not
rejected with the invalid-argument error as the claim states — the
constructor only rejects a negative chunk size. -/
theorem c3_zero_chunk_size_accepted :
    newNewlineDelimitedChunkReader (some []) 0
      = Except.ok
          { r := some [], delimiter := newline, chunkSize := 0, prev := [] } :=
  rfl

/-- C3 amended: `NewNewlineDelimitedChunkReader` returns the invalid-argument
error exactly when the chunk size is negative or the reader is nil; every
non-negative chunk size (zero included) with a non-nil reader succeeds. -/
theorem c3_invalid_argument_exactly_when_negative_or_nil
    (reader : Option (List Nat)) (chunkSize : Int) :
    (newNewlineDelimitedChunkReader reader chunkSize
        = Except.error GoErr.invalidArg
      ↔ chunkSize < 0 ∨ reader = none)
    ∧ (¬(chunkSize < 0 ∨ reader = none) →
      ∃ c, newNewlineDelimitedChunkReader reader chunkSize = Except.ok c) := by
  unfold newNewlineDelimitedChunkReader
  refine ⟨⟨?_, ?_⟩, ?_⟩
  · intro h
    by_cases hneg : chunkSize < 0
    · exact Or.inl hneg
    · cases reader with
      | none => exact Or.inr rfl
      | some src => simp [hneg] at h
  · rintro (hneg | hnil)
    · simp [hneg]
    · cases hnil
      by_cases hneg : chunkSize < 0 <;> simp [hneg]
  · intro hvalid
    push_neg at hvalid
    obtain ⟨hge, hsome⟩ := hvalid
    cases reader with
    | none => exact absurd rfl hsome
    | some src =>
      exact ⟨{ r := some src, delimiter := newline,
               chunkSize := chunkSize.toNat, prev := [] },
        by simp [Int.not_lt.mpr hge]⟩

/-- C7 counterexample: chunking the empty stream produces one chunk (with
empty content, hence zero frames), not zero chunks as the claim states —
the first `NextChunk` call's empty short read is still returned as a chunk
before the second call reports `io.EOF`. -/
theorem c7_empty_stream_yields_one_chunk :
    runChunks 3
        { r := some [], delimiter := 10, chunkSize := 128, prev := [] }
      = RunResult.done [[]]
    ∧ ([([] : List Nat)] : List (List Nat)).length = 1 := by
  exact ⟨rfl, rfl⟩

/-- C7 amended: chunking then decoding the empty stream yields one chunk
with empty content and zero frames; the stream `"c:bob"` (no trailing
delimiter) yields exactly one frame `"c:bob"`; the stream `"c:bob\n"`
yields exactly one frame `"c:bob"`, the trailing empty line being skipped.
Bytes: `"c:bob" = [99, 58, 98, 111, 98]`, chunk size 128 throughout. -/
theorem c7_boundary_edge_cases :
    runChunks 3
        { r := some [], delimiter := 10, chunkSize := 128, prev := [] }
      = RunResult.done [[]]
    ∧ chunkedFrames [[]] = []
    ∧ runChunks 3
        { r := some [99, 58, 98, 111, 98], delimiter := 10, chunkSize := 128,
          prev := [] }
      = RunResult.done [[99, 58, 98, 111, 98]]
    ∧ chunkedFrames [[99, 58, 98, 111, 98]] = [[99, 58, 98, 111, 98]]
    ∧ runChunks 3
        { r := some [99, 58, 98, 111, 98, 10], delimiter := 10,
          chunkSize := 128, prev := [] }
      = RunResult.done [[99, 58, 98, 111, 98]]
    ∧ chunkedFrames [[99, 58, 98, 111, 98]] = [[99, 58, 98, 111, 98]] := by
  exact ⟨rfl, rfl, rfl, rfl, rfl, rfl⟩

/-- `bytes.LastIndexByte` finds nothing exactly when the byte is absent. -/
theorem lastIndexByte_eq_none {l : List Nat} {b : Nat} (h : b ∉ l) :
    lastIndexByte l b = none := by
  induction l with
  | nil => rfl
  | cons a rest ih =>
    have hrest : b ∉ rest := fun hm => h (List.mem_cons_of_mem a hm)
    have ha : ¬a = b := fun hab => h (hab ▸ List.mem_cons_self a rest)
    simp [lastIndexByte, ih hrest, ha]

/-- When the byte occurs, `bytes.LastIndexByte` returns an index at which
the byte sits, with no later occurrence. -/
theorem lastIndexByte_spec {l : List Nat} {b : Nat} (h : b ∈ l) :
    ∃ i, lastIndexByte l b = some i
      ∧ (l.drop i).head? = some b
      ∧ b ∉ (l.drop i).drop 1 := by
  induction l with
  | nil => cases h
  | cons a rest ih =>
    by_cases hmem : b ∈ rest
    · obtain ⟨i, hfind, hhead, hnot⟩ := ih hmem
      exact ⟨i + 1, by simp [lastIndexByte, hfind], hhead, hnot⟩
    · have hfind : lastIndexByte rest b = none := lastIndexByte_eq_none hmem
      have hab : a = b := by
        rcases List.mem_cons.mp h with h' | h'
        · exact h'.symm
        · exact absurd h' hmem
      exact ⟨0, by simp [lastIndexByte, hfind, hab], by simp [hab],
        by simpa using hmem⟩

/-- C4: a full-size read (`chunkSize` bytes available) containing no
delimiter makes `NextChunk` fail with `NoFrameFoundErr` rather than return a
chunk, while a short read (end-of-input, fewer than `chunkSize` bytes)
containing no delimiter yields the carry buffer followed by the remaining
bytes, as-is, as the final chunk's content. -/
theorem c4_full_read_without_delimiter_fails (src prev : List Nat)
    (chunkSize : Nat) :
    (chunkSize ≤ src.length → newline ∉ src.take chunkSize →
      (nextChunk
          { r := some src, delimiter := newline, chunkSize := chunkSize,
            prev := prev }).1
        = ChunkStep.noFrameFound)
    ∧ (src.length < chunkSize → newline ∉ src →
      (nextChunk
          { r := some src, delimiter := newline, chunkSize := chunkSize,
            prev := prev }).1
        = ChunkStep.chunk (prev ++ src)) := by
  constructor
  · intro hle hnot
    have hfind : lastIndexByte (src.take chunkSize) newline = none :=
      lastIndexByte_eq_none hnot
    have hlen : (src.take chunkSize).length = chunkSize := by
      simp [List.length_take, Nat.min_eq_left hle]
    simp [nextChunk, hfind, hlen]
  · intro hlt hnot
    have htake : src.take chunkSize = src := List.take_of_length_le hlt.le
    have hfind : lastIndexByte src newline = none := lastIndexByte_eq_none hnot
    have hlen : ¬src.length = chunkSize := by omega
    simp [nextChunk, htake, hfind, hlen]

/-- C10: whenever the bytes just read contain the delimiter, `NextChunk`
returns a chunk whose content stops right before the last delimiter — the
content and the new carry buffer together are exactly the old carry buffer
followed by the bytes read, the carry is non-empty, begins with the
delimiter, and holds no later delimiter; and the chunk cursors being built
with empty-line skipping, a leading delimiter in a stream (the empty line a
prepended carry produces) is silently discarded by the decoder. -/
theorem c10_carry_starts_with_delimiter :
    (∀ (src prev : List Nat) (chunkSize : Nat),
      newline ∈ src.take chunkSize →
      ∃ content c',
        nextChunk
            { r := some src, delimiter := newline, chunkSize := chunkSize,
              prev := prev }
          = (ChunkStep.chunk content, c')
        ∧ content ++ c'.prev = prev ++ src.take chunkSize
        ∧ c'.prev ≠ []
        ∧ c'.prev.head? = some newline
        ∧ newline ∉ c'.prev.drop 1)
    ∧ ∀ x : List Nat, newlineFrames true (newline :: x) = newlineFrames true x := by
  constructor
  · intro src prev chunkSize hmem
    obtain ⟨i, hfind, hhead, hnot⟩ := lastIndexByte_spec hmem
    refine ⟨prev ++ (src.take chunkSize).take i,
      { r := if src.length < chunkSize then none
             else some (src.drop chunkSize),
        delimiter := newline, chunkSize := chunkSize,
        prev := (src.take chunkSize).drop i },
      by simp [nextChunk, hfind], ?_, ?_, hhead, hnot⟩
    · simp [List.append_assoc, List.take_append_drop]
    · intro hnil
      simp only at hnil
      rw [hnil] at hhead
      cases hhead
  · intro x
    have hsplit : splitLines (newline :: x) = [] :: splitLines x := by
      simp [splitLines]
    simp [newlineFrames, hsplit, dropCR]

/-- C6: a `Read` of the var-length frame reader at end-of-input before any
byte of a new length prefix reports plain end-of-stream (`io.EOF`); a `Read`
whose length prefix was decoded but whose declared payload length exceeds
the remaining bytes reports the unexpected-truncation error
(`io.ErrUnexpectedEOF`); and the two signals are distinct. -/
theorem c6_truncation_distinct_from_eof :
    varLenReadFrame [] = Except.error GoErr.eof
    ∧ (∀ (input rest : List Nat) (payloadLen : Nat),
        readUvarint input = Except.ok (payloadLen, rest) →
        rest.length < payloadLen →
        varLenReadFrame input = Except.error GoErr.unexpectedEOF)
    ∧ GoErr.unexpectedEOF ≠ GoErr.eof := by
  refine ⟨rfl, ?_, by decide⟩
  intro input rest payloadLen hread hlt
  have hnle : ¬payloadLen ≤ rest.length := by omega
  simp [varLenReadFrame, hread, hnle]

/-- C8: `chainedCloser.Close` invokes the constituent closers in declared
order: when every constituent succeeds, all are invoked in order and the
call succeeds; when some constituent fails after a succeeding prelude, the
closers invoked are exactly the prelude and the failing one (each once, in
order), the first failure's error is returned, and no closer after the
failing one is invoked. -/
theorem c8_chained_closer_order_and_first_failure :
    (∀ cs : List GoCloser, (∀ c ∈ cs, c.res = none) →
      chainedClose cs = (cs.map GoCloser.id, none))
    ∧ (∀ (pre : List GoCloser) (c : GoCloser) (post : List GoCloser) (e : Nat),
        (∀ d ∈ pre, d.res = none) → c.res = some e →
        chainedClose (pre ++ c :: post)
          = ((pre ++ [c]).map GoCloser.id, some e)) := by
  constructor
  · intro cs h
    induction cs with
    | nil => rfl
    | cons c rest ih =>
      have hc : c.res = none := h c (List.mem_cons_self c rest)
      have hrest := ih fun d hd => h d (List.mem_cons_of_mem c hd)
      simp [chainedClose, hc, hrest]
  · intro pre c post e hpre hc
    induction pre with
    | nil => simp [chainedClose, hc]
    | cons d rest ih =>
      have hd : d.res = none := hpre d (List.mem_cons_self d rest)
      have hrest := ih fun d' hd' => hpre d' (List.mem_cons_of_mem d hd')
      simp [chainedClose, hd, hrest]

/-- After the `sync.Once` has fired with saved result `x`, every further
`closeOnce.Close` call returns `x` and never invokes the underlying
closer. -/
theorem closeOnceCalls_after_done (res x : Option Nat) (m : Nat) :
    closeOnceCalls res { done := true, saved := x } m
      = (List.replicate m x, 0) := by
  induction m with
  | zero => rfl
  | succ k ih => simp [closeOnceCalls, closeOnceStep, ih, List.replicate_succ]

/-- C9: for any underlying close result and any positive number of `Close`
calls on the `SafeCloser` wrapper, the underlying `Close` executes exactly
once and every call returns the result of the first. -/
theorem c9_safe_closer_close_once (res : Option Nat) (n : Nat) (h : 0 < n) :
    closeOnceCalls res closeOnceInit n = (List.replicate n res, 1) := by
  cases n with
  | zero => omega
  | succ m =>
    simp [closeOnceCalls, closeOnceStep, closeOnceInit,
      closeOnceCalls_after_done, List.replicate_succ]

/-- C9 witness: three `Close` calls on a fresh wrapper whose underlying
close fails with error 5 all return that error, with one underlying
invocation. -/
theorem c9_witness :
    closeOnceCalls (some 5) closeOnceInit 3 = (List.replicate 3 (some 5), 1) :=
  c9_safe_closer_close_once (some 5) 3 (by decide)

/-- C3 witness: a nil reader with chunk size -1 is rejected with the
invalid-argument error, and a non-nil reader with chunk size 1 is
accepted. -/
theorem c3_witness :
    newNewlineDelimitedChunkReader none (-1) = Except.error GoErr.invalidArg
    ∧ ∃ c, newNewlineDelimitedChunkReader (some []) 1 = Except.ok c :=
  ⟨(c3_invalid_argument_exactly_when_negative_or_nil none (-1)).1.mpr
      (Or.inl (by decide)),
    (c3_invalid_argument_exactly_when_negative_or_nil (some []) 1).2
      (by decide)⟩

/-- C4 witness: a full-size read `"ab"` with chunk size 2 and no delimiter
fails with `NoFrameFoundErr`; a short read `"a"` with chunk size 2 and no
delimiter is returned as the final chunk's content. -/
theorem c4_witness :
    (nextChunk
        { r := some [97, 98], delimiter := newline, chunkSize := 2,
          prev := [] }).1
      = ChunkStep.noFrameFound
    ∧ (nextChunk
        { r := some [97], delimiter := newline, chunkSize := 2,
          prev := [] }).1
      = ChunkStep.chunk ([] ++ [97]) :=
  ⟨(c4_full_read_without_delimiter_fails [97, 98] [] 2).1 (by decide)
      (by decide),
    (c4_full_read_without_delimiter_fails [97] [] 2).2 (by decide)
      (by decide)⟩

/-- C6 witness: the stream `[3]`, a length prefix declaring three payload
bytes with none remaining, fails with the unexpected-truncation error. -/
theorem c6_witness :
    varLenReadFrame [3] = Except.error GoErr.unexpectedEOF :=
  c6_truncation_distinct_from_eof.2.1 [3] [] 3 rfl (by decide)

/-- C8 witness: three succeeding closers close in declaration order; when
the second of three fails with error 7, only the first two are invoked and
error 7 is returned. -/
theorem c8_witness :
    chainedClose [⟨1, none⟩, ⟨2, none⟩, ⟨3, none⟩] = ([1, 2, 3], none)
    ∧ chainedClose [⟨1, none⟩, ⟨2, some 7⟩, ⟨3, none⟩] = ([1, 2], some 7) :=
  ⟨c8_chained_closer_order_and_first_failure.1
      [⟨1, none⟩, ⟨2, none⟩, ⟨3, none⟩] (by decide),
    c8_chained_closer_order_and_first_failure.2
      [⟨1, none⟩] ⟨2, some 7⟩ [⟨3, none⟩] 7 (by decide) rfl⟩

/-- C10 witness: reading `"a\n"` with chunk size 2 produces a chunk whose
content and carry split at the delimiter, the carry starting with the
delimiter byte; and the decoder drops the empty line a leading delimiter
produces before `"b"`. -/
theorem c10_witness :
    (∃ content c',
      nextChunk
          { r := some [97, 10], delimiter := newline, chunkSize := 2,
            prev := [] }
        = (ChunkStep.chunk content, c')
      ∧ content ++ c'.prev = [] ++ List.take 2 [97, 10]
      ∧ c'.prev ≠ []
      ∧ c'.prev.head? = some newline
      ∧ newline ∉ c'.prev.drop 1)
    ∧ newlineFrames true (newline :: [98]) = newlineFrames true [98] :=
  ⟨c10_carry_starts_with_delimiter.1 [97, 10] [] 2 (by decide),
    c10_carry_starts_with_delimiter.2 [98]⟩

/-- A uvarint encoding is never empty. -/
theorem putUvarint_length_pos (n : Nat) : 0 < (putUvarint n).length := by
  unfold putUvarint
  split <;> simp

/-- A value below `128 ^ k` encodes into at most `k` uvarint bytes. -/
theorem putUvarint_length_le :
    ∀ (k n : Nat), n < 128 ^ k → 0 < k → (putUvarint n).length ≤ k := by
  intro k
  induction k with
  | zero => omega
  | succ j ih =>
    intro n hn _
    unfold putUvarint
    split
    · simp
    · rename_i hge
      have hj : 0 < j := by
        rcases Nat.eq_zero_or_pos j with hj0 | hj0
        · subst hj0; simp [pow_succ] at hn; omega
        · exact hj0
      have hdiv : n / 128 < 128 ^ j := by
        apply Nat.div_lt_of_lt_mul
        calc n < 128 ^ (j + 1) := hn
          _ = 128 * 128 ^ j := by ring
      simpa using Nat.succ_le_succ (ih (n / 128) hdiv hj)

/-- Decoding a uvarint encoding placed in the stream at byte position `i`
(shift `7 * i`) adds the encoded value, shifted, to the accumulator and
leaves the rest of the stream unread, as long as the encoding ends before
the tenth byte. -/
theorem readUvarintLoop_encode :
    ∀ (n i x : Nat) (rest : List Nat), i + (putUvarint n).length ≤ 9 →
      readUvarintLoop (putUvarint n ++ rest) i x
        = Except.ok (x + n * 2 ^ (7 * i), rest) := by
  intro n
  induction n using Nat.strong_induction_on with
  | _ n ih =>
    intro i x rest hlen
    by_cases h : n < 128
    · have henc : putUvarint n = [n] := by
        conv_lhs => rw [putUvarint]
        simp [h]
      rw [henc] at hlen ⊢
      have hi9 : ¬i = 9 := by simp at hlen; omega
      have hi10 : ¬10 ≤ i := by simp at hlen; omega
      simp [readUvarintLoop, hi10, h, hi9]
    · have henc : putUvarint n = (n % 128 + 128) :: putUvarint (n / 128) := by
        conv_lhs => rw [putUvarint]
        simp [h]
      rw [henc] at hlen
      have hi10 : ¬10 ≤ i := by
        have := putUvarint_length_pos (n / 128)
        simp at hlen; omega
      have hb : ¬n % 128 + 128 < 128 := by omega
      have hmod : (n % 128 + 128) % 128 = n % 128 := by omega
      have hrec := ih (n / 128) (Nat.div_lt_self (by omega) (by omega))
        (i + 1) (x + n % 128 * 2 ^ (7 * i)) rest (by simp at hlen ⊢; omega)
      have hpow : 2 ^ (7 * (i + 1)) = 2 ^ (7 * i) * 128 := by
        rw [Nat.mul_succ, pow_add]
        norm_num
      have hval : x + n % 128 * 2 ^ (7 * i) + n / 128 * 2 ^ (7 * (i + 1))
          = x + n * 2 ^ (7 * i) := by
        rw [hpow]
        conv_rhs => rw [← Nat.div_add_mod n 128]
        ring
      rw [henc, List.cons_append, readUvarintLoop]
      rw [if_neg hi10]
      simp only [hb, if_false, hmod]
      rw [hrec, hval]

/-- Reading back a uvarint written by `binary.PutUvarint` recovers the value
and consumes exactly the encoding, for values below `2 ^ 35` (the writer's
five-byte scratch buffer bounds the encodable lengths). -/
theorem readUvarint_encode (n : Nat) (rest : List Nat) (h : n < 2 ^ 35) :
    readUvarint (putUvarint n ++ rest) = Except.ok (n, rest) := by
  have hlen : (putUvarint n).length ≤ 5 := by
    apply putUvarint_length_le 5 n _ (by omega)
    calc n < 2 ^ 35 := h
      _ = 128 ^ 5 := by norm_num
  have := readUvarintLoop_encode n 0 0 rest (by omega)
  simpa [readUvarint] using this

/-- One var-length `Read` over a stream beginning with one written frame
recovers that frame's payload and consumes exactly the frame. -/
theorem varLenReadFrame_encode (p rest : List Nat) (h : p.length < 2 ^ 35) :
    varLenReadFrame (varLenWrite p ++ rest) = Except.ok (p, rest) := by
  have hread : readUvarint (putUvarint p.length ++ (p ++ rest))
      = Except.ok (p.length, p ++ rest) := readUvarint_encode p.length _ h
  have hle : p.length ≤ (p ++ rest).length := by simp
  simp [varLenReadFrame, varLenWrite, List.append_assoc, hread, hle,
    List.take_left, List.drop_left]

/-- Draining a var-length stream written from `payloads` returns exactly
`payloads`, for any fuel beyond the stream's length. -/
theorem decodeVarLenFuel_encode :
    ∀ (payloads : List (List Nat)) (fuel : Nat),
      (encodeVarLen payloads).length < fuel →
      (∀ p ∈ payloads, p.length < 2 ^ 35) →
      decodeVarLenFuel fuel (encodeVarLen payloads)
        = some (Except.ok payloads) := by
  intro payloads
  induction payloads with
  | nil =>
    intro fuel hfuel _
    cases fuel with
    | zero => omega
    | succ f =>
      simp [encodeVarLen, decodeVarLenFuel, varLenReadFrame, readUvarint,
        readUvarintLoop]
  | cons p ps ih =>
    intro fuel hfuel hsmall
    have henc : encodeVarLen (p :: ps) = varLenWrite p ++ encodeVarLen ps := by
      simp [encodeVarLen]
    cases fuel with
    | zero => omega
    | succ f =>
      have hp : p.length < 2 ^ 35 := hsmall p (List.mem_cons_self p ps)
      have hfront : 0 < (varLenWrite p).length := by
        have := putUvarint_length_pos p.length
        simp [varLenWrite]
        omega
      have hrest : (encodeVarLen ps).length < f := by
        rw [henc] at hfuel
        simp [List.length_append] at hfuel
        omega
      have hihyp := ih f hrest fun q hq => hsmall q (List.mem_cons_of_mem p hq)
      rw [henc]
      simp only [decodeVarLenFuel, varLenReadFrame_encode p _ hp, hihyp]

/-- C5: writing any finite ordered sequence of payloads with
`NewVarLenFrameWriter` (the empty sequence and zero-length payloads
included) and draining the resulting stream with `NewVarLenFrameReader`
yields exactly the original payload sequence, in order.  Payload lengths are
bounded by `2 ^ 35`, the largest length the writer's
`binary.MaxVarintLen32`-byte scratch buffer can encode. -/
theorem c5_varlen_round_trip (payloads : List (List Nat))
    (h : ∀ p ∈ payloads, p.length < 2 ^ 35) :
    decodeVarLen (encodeVarLen payloads) = some (Except.ok payloads) :=
  decodeVarLenFuel_encode payloads _ (by omega) h

/-- C5 witness: the sequence of a three-byte payload, an empty payload and a
one-byte payload round-trips through the var-length framing. -/
theorem c5_witness :
    decodeVarLen (encodeVarLen [[1, 2, 3], [], [200]])
      = some (Except.ok [[1, 2, 3], [], [200]]) :=
  c5_varlen_round_trip [[1, 2, 3], [], [200]] (by decide)

end Pkglib
